import Mathlib

/-!
Verification development for the codemetrics repository.

The Python sources under src/codemetrics are shallowly embedded: a pandas
DataFrame of SCM log rows becomes a list of records, DataFrame operations
become the corresponding list operations (groupby with its ascending key
sort becomes first-occurrence dedup followed by an insertion sort, merge
becomes a nested filter, drop_duplicates becomes first-occurrence dedup),
and Python exceptions become Except values or an explicit error component.
Rational numbers stand for the Python float results of divisions; divisions
are written with mkRat, which provably equals the field division (see
mkRat_eq_cast_div below) and evaluates inside the kernel.
-/

namespace Codemetrics

/-- Auxiliary recursion for first-occurrence deduplication: elements already
seen are dropped, new elements are kept and recorded. -/
def dedupFirstAux [DecidableEq α] (seen : List α) : List α → List α
  | [] => []
  | x :: xs => if x ∈ seen then dedupFirstAux seen xs else x :: dedupFirstAux (x :: seen) xs

/-- First-occurrence deduplication, the semantics of pandas drop_duplicates
with keep set to first. -/
def dedupFirst [DecidableEq α] (l : List α) : List α :=
  dedupFirstAux [] l

/-- Code-point lexicographic comparison of character lists, the order pandas
uses when sorting string group keys. Defined structurally so that it
evaluates inside the kernel. -/
def charListLe : List Char → List Char → Bool
  | [], _ => true
  | _ :: _, [] => false
  | x :: xs, y :: ys =>
    if x < y then true
    else if y < x then false
    else charListLe xs ys

/-- String comparison used for sorted group keys. -/
def strLe (a b : String) : Prop :=
  charListLe a.data b.data = true

instance : DecidableRel strLe := fun a b =>
  inferInstanceAs (Decidable (charListLe a.data b.data = true))

/-- One row of the normalized SCM log table as the aggregation functions of
core.py read it (a row of the DataFrame built from codemetrics.scm.LogEntry
records): only the columns those functions touch are modeled. Dates are
integer seconds since the epoch, UTC. -/
structure Row where
  revision : Nat
  path : String
  message : String
  author : String
  date : Int
deriving DecidableEq, Repr

/-- Count of rows of the log carrying the given revision: the pandas
groupby on revision followed by count() counts the non-null path cells of
each group, which is one cell per row. -/
def rowCount (log : List Row) (rev : Nat) : Nat :=
  (log.filter (fun r => decide (r.revision = rev))).length

/-- Distinct revisions of the log in ascending order, as the pandas groupby
key sort produces them. -/
def revisionKeys (log : List Row) : List Nat :=
  List.insertionSort (fun a b => a ≤ b) (dedupFirst (log.map (·.revision)))

/-- Embedding of core.get_mass_change_sets. Output columns: revision,
path_count, message, author. The merge of the filtered per-revision counts
with the de-duplicated (revision, message, author) frame joins on the only
shared column, revision. -/
def get_mass_change_sets (log : List Row) (min_changes : Nat) :
    List (Nat × Nat × String × String) :=
  let by_rev := (revisionKeys log).map (fun rev => (rev, rowCount log rev))
  let massive := by_rev.filter (fun rc => decide (min_changes < rc.2))
  let msgAuth := dedupFirst (log.map (fun r => (r.revision, r.message, r.author)))
  massive.flatMap (fun rc =>
    (msgAuth.filter (fun t => decide (t.1 = rc.1))).map
      (fun t => (rc.1, rc.2, t.2.1, t.2.2)))

/-- Number of distinct paths of a revision, the quantity named by claim C1;
the code does not compute this. -/
def distinctPathCount (log : List Row) (rev : Nat) : Nat :=
  (dedupFirst ((log.filter (fun r => decide (r.revision = rev))).map (·.path))).length

/-- Log exhibiting the gap between row counts and distinct path counts:
revision 1 appears in two rows with the same path and two different
messages. -/
def massLog : List Row :=
  [⟨1, "a", "m1", "x", 0⟩, ⟨1, "a", "m2", "x", 0⟩]

/-- One output row of core.get_co_changes. -/
structure CoRow where
  path : String
  dependency : String
  changes : Nat
  cochanges : Nat
  coupling : ℚ
deriving DecidableEq, Repr

/-- All ordered pairs of paths sharing a revision: the pandas inner self
merge of the de-duplicated (revision, path) frame with itself on
revision. -/
def selfJoin (df : List (Nat × String)) : List (String × String) :=
  df.flatMap (fun l =>
    df.filterMap (fun r => if l.1 = r.1 then some (l.2, r.2) else none))

/-- Occurrences of one ordered pair of paths in the self join: the count of
the groupby on (path, dependency). -/
def pairCount (df : List (Nat × String)) (pq : String × String) : Nat :=
  (selfJoin df).countP (fun x => decide (x = pq))

/-- Lexicographic comparison on (path, dependency), the groupby key
sort. -/
def pairLe (a b : String × String) : Prop :=
  (if a.1 = b.1 then charListLe a.2.data b.2.data
   else charListLe a.1.data b.1.data) = true

instance : DecidableRel pairLe := fun a b =>
  inferInstanceAs (Decidable
    ((if a.1 = b.1 then charListLe a.2.data b.2.data
      else charListLe a.1.data b.1.data) = true))

/-- Descending comparison on coupling used for the final sort_values with
ascending set to false. -/
def couplingGE (a b : CoRow) : Prop :=
  b.coupling ≤ a.coupling

instance : DecidableRel couplingGE := fun a b =>
  inferInstanceAs (Decidable (b.coupling ≤ a.coupling))

instance : IsTotal CoRow couplingGE :=
  ⟨fun a b => le_total b.coupling a.coupling⟩

instance : IsTrans CoRow couplingGE :=
  ⟨fun _ _ _ h1 h2 => le_trans h2 h1⟩

/-- De-duplicated (revision, path) frame of the log. -/
def coDf (log : List Row) : List (Nat × String) :=
  dedupFirst (log.map (fun r => (r.revision, r.path)))

/-- Grouped self join with its count column: one entry per distinct
(path, dependency) pair, in groupby key order, carrying the number of
shared revisions. -/
def coSj (log : List Row) : List ((String × String) × Nat) :=
  (List.insertionSort pairLe (dedupFirst (selfJoin (coDf log)))).map
    (fun pq => (pq, pairCount (coDf log) pq))

/-- Rows of the grouped self join whose two paths agree, reduced to
(path, changes): the left side of the final merge. -/
def coSelfs (log : List Row) : List (String × Nat) :=
  ((coSj log).filter (fun t => decide (t.1.1 = t.1.2))).map (fun t => (t.1.1, t.2))

/-- Rows of the grouped self join whose two paths differ: the right side of
the final merge. -/
def coNonselfs (log : List Row) : List ((String × String) × Nat) :=
  (coSj log).filter (fun t => decide (¬ t.1.1 = t.1.2))

/-- The final merge of self counts with cross counts on the path column,
with the coupling column added: coupling is cochanges divided by changes
(mkRat, equal to the rational division by mkRat_eq_cast_div). -/
def coMerged (log : List Row) : List CoRow :=
  (coSelfs log).flatMap (fun s =>
    ((coNonselfs log).filter (fun t => decide (t.1.1 = s.1))).map
      (fun t => ⟨t.1.1, t.1.2, s.2, t.2, mkRat t.2 s.2⟩))

/-- Embedding of core.get_co_changes at its default parameters (by is path,
on is revision). The final sort is by coupling descending; the model uses a
stable insertion sort, while pandas sort_values leaves the order of equal
couplings unspecified, so only tie-order-independent properties are
claimed. -/
def get_co_changes (log : List Row) : List CoRow :=
  List.insertionSort couplingGE (coMerged log)

/-- Log of the scenario in claim C3: revision 1 touches a, b and c,
revision 2 touches a and b, revision 3 touches c. -/
def coLog : List Row :=
  [⟨1, "a", "m", "x", 0⟩, ⟨1, "b", "m", "x", 0⟩, ⟨1, "c", "m", "x", 0⟩,
   ⟨2, "a", "m", "x", 0⟩, ⟨2, "b", "m", "x", 0⟩, ⟨3, "c", "m", "x", 0⟩]

/-- Lower casing of a string, character by character: the semantics of the
Python str.lower call of svn.to_bool for the ASCII inputs the function
compares against. Defined over the character list so that it evaluates
inside the kernel. -/
def strToLower (s : String) : String :=
  String.mk (s.data.map Char.toLower)

/-- Embedding of svn.to_bool. A Python ValueError becomes the error case of
Except, carrying the formatted message. -/
def to_bool (bool_str : String) : Except String Bool :=
  let bool_str_lc := strToLower bool_str
  if bool_str_lc = "true" ∨ bool_str_lc = "1" ∨ bool_str_lc = "t" then
    Except.ok true
  else if bool_str_lc = "false" ∨ bool_str_lc = "0" ∨ bool_str_lc = "f"
      ∨ bool_str_lc = "" then
    Except.ok false
  else
    Except.error ("cannot interpret " ++ bool_str ++ " as a bool")

/-- One path sub-element of an svn logentry XML element, as process_entry
reads it: the text of the element and the six attributes it extracts. A
missing text or attribute is none; process_entry stores a missing
attribute as np.nan, which the Option layer models. -/
structure PathElem where
  text : Option String
  textMods : Option String
  kind : Option String
  action : Option String
  propMods : Option String
  copyfromRev : Option String
  copyfromPath : Option String
deriving DecidableEq, Repr

/-- One buffered logentry element: the revision attribute and the author,
date and msg sub-element texts extracted by _extract (none when the
sub-element is missing or empty), plus the path sub-elements. -/
structure SvnEntry where
  revision : String
  author : Option String
  date : Option String
  msg : Option String
  paths : List PathElem
deriving DecidableEq, Repr

/-- The record yielded by process_entry for one path (codemetrics.scm
LogEntry as svn.py builds it). The date field keeps the raw date string:
to_date delegates to the external dateutil parser, which is out of scope,
and only wraps the string. -/
structure LogEntry where
  revision : String
  author : Option String
  date : String
  path : String
  message : Option String
  textmods : Bool
  kind : Option String
  action : Option String
  propmods : Bool
  copyfromrev : Option String
  copyfrompath : Option String
  added : Option Nat
  removed : Option Nat
deriving DecidableEq, Repr

/-- Embedding of svn.to_date: the external dateutil parse is out of scope,
so the raw UTC date string is kept as is. -/
def to_date (s : String) : String := s

/-- Application of to_bool to an extracted attribute value: process_entry
stored a missing attribute as np.nan, and the Python bool coercion of
np.nan fails with an AttributeError (a float has no lower method), which
this renders as an error. -/
def to_bool_attr : Option String → Except String Bool
  | some s => to_bool s
  | none => Except.error "AttributeError: nan has no attribute lower"

/-- Replacement of every non-overlapping occurrence of pat by rep scanning
left to right, the semantics of Python str.replace. The fuel argument,
instantiated with the length of the subject, only provides structural
termination; each step consumes at least one character and one unit of
fuel. -/
def replaceChars (pat rep : List Char) : Nat → List Char → List Char
  | _, [] => []
  | 0, s => s
  | Nat.succ fuel, c :: rest =>
    if pat.isPrefixOf (c :: rest) ∧ pat ≠ [] then
      rep ++ replaceChars pat rep fuel (List.drop (pat.length - 1) rest)
    else
      c :: replaceChars pat rep fuel rest

/-- String replacement in terms of replaceChars. -/
def strReplace (s pat rep : String) : String :=
  String.mk (replaceChars pat.data rep.data s.data.length s.data)

/-- Processing of one path element of a log entry, the body of the for
loop of _SvnLogCollector.process_entry. The try block around the path text
can only fail on a missing text (None): the assert then raises an
AssertionError, an exception type the except clause (AttributeError,
SyntaxError, ValueError) does not catch, so the failure aborts the entry
and the placeholder branch of the Python code is unreachable for string
inputs. The date assert follows the path text handling, and the boolean
coercions of text-mods and prop-mods run in the order of the LogEntry
constructor arguments. -/
def processPath (rel_url_slash rev : String) (author : Option String)
    (date : Option String) (message : Option String) (pe : PathElem) :
    Except String LogEntry := do
  let path ← match pe.text with
    | some t => Except.ok (strReplace t rel_url_slash "")
    | none => Except.error "AssertionError"
  let d ← match date with
    | some d => Except.ok d
    | none => Except.error "expected datetime got None"
  let textmods ← to_bool_attr pe.textMods
  let propmods ← to_bool_attr pe.propMods
  Except.ok
    { revision := rev, author := author, date := to_date d, path := path,
      message := message, textmods := textmods, kind := pe.kind,
      action := pe.action, propmods := propmods,
      copyfromrev := pe.copyfromRev, copyfrompath := pe.copyfromPath,
      added := none, removed := none }

/-- Folding of the per-path processing over the path elements of one
entry: the rows yielded before the first uncaught exception, together with
that exception when one occurs, which is the observable behavior of the
Python generator. -/
def processPaths (f : PathElem → Except String LogEntry) :
    List PathElem → List LogEntry × Option String
  | [] => ([], none)
  | pe :: rest =>
    match f pe with
    | Except.error e => ([], some e)
    | Except.ok entry =>
      match processPaths f rest with
      | (rows, err) => (entry :: rows, err)

/-- Embedding of _SvnLogCollector.process_entry. The relative url of the
repository, a property of the collector object, is passed explicitly; the
message has its newlines collapsed to spaces before the path loop. -/
def process_entry (relative_url : String) (e : SvnEntry) :
    List LogEntry × Option String :=
  let message := e.msg.map (fun m => strReplace m "\n" " ")
  let rel_url_slash := relative_url ++ "/"
  processPaths (processPath rel_url_slash e.revision e.author e.date message) e.paths

/-- A fully populated path element. -/
def peGood : PathElem :=
  ⟨some "/trunk/f.c", some "true", some "file", some "M", some "false", none, none⟩

/-- A path element whose text is missing. -/
def peNoText : PathElem :=
  ⟨none, some "true", some "file", some "M", some "false", none, none⟩

/-- An entry with a date whose first path element has no text and whose
second is fully populated. -/
def entryNoText : SvnEntry :=
  ⟨"1", some "alice", some "2018-01-01", none, [peNoText, peGood]⟩

/-- An entry with no date and no path elements. -/
def entryNoDateNoPaths : SvnEntry :=
  ⟨"2", some "bob", none, none, []⟩

/-- An entry with no date and one fully populated path element. -/
def entryNoDateWithPath : SvnEntry :=
  ⟨"3", none, none, none, [peGood]⟩

/-- A path element with text but without the prop-mods attribute. -/
def peNoProp : PathElem :=
  ⟨some "/trunk/g.c", some "true", some "file", some "M", none, none, none⟩

/-- An entry with a date whose only path element lacks the prop-mods
attribute. -/
def entryNoProp : SvnEntry :=
  ⟨"4", some "carol", some "2018-01-02", none, [peNoProp]⟩

/-- Maximum of a list of integers, the pandas max aggregation of a
non-empty group; the empty case never arises for groupby groups. -/
def listMax : List Int → Int
  | [] => 0
  | x :: xs => xs.foldl max x

/-- Distinct paths of the log in ascending order: the pandas groupby key
sort at the default grouping of get_ages (by equal to [path]). -/
def agePaths (data : List Row) : List String :=
  List.insertionSort strLe (dedupFirst (data.map (·.path)))

/-- Dates of the rows of one path group. -/
def groupDates (data : List Row) (p : String) : List Int :=
  (data.filter (fun r => decide (r.path = p))).map (·.date)

/-- Embedding of core.get_ages at its default grouping. Dates and the
current time are integer seconds; the division by 86400 models the pandas
division of the timedelta by Timedelta(1, unit equal to D), producing
fractional days (mkRat equals the rational division by mkRat_eq_cast_div).
Modelled from the spec: module internals is not under src, and the spec
describes internals.get_now as the injectable process-wide clock captured
once per call, which the explicit now parameter represents. -/
def get_ages (data : List Row) (now : Int) : List (String × ℚ) :=
  (agePaths data).map (fun p => (p, mkRat (now - listMax (groupDates data p)) 86400))

/-- Input for the C8 witness. -/
def agesLog : List Row :=
  [⟨1, "b", "m", "x", 5⟩, ⟨1, "a", "m", "x", 3⟩]

/-- The same rows in the other order. -/
def agesLogPerm : List Row :=
  [⟨1, "a", "m", "x", 3⟩, ⟨1, "b", "m", "x", 5⟩]

/-- Per-path change count of get_hot_spots at its default parameters: the
value_counts of the path column of the frame de-duplicated on
(revision, path). -/
def changeCount (log : List Row) (p : String) : Nat :=
  ((dedupFirst (log.map (fun r => (r.revision, r.path)))).filter
    (fun x => decide (x.2 = p))).length

/-- Index of the change-count frame: the distinct changed paths ordered by
descending count, as value_counts orders them (ties keep first-seen order
here; pandas leaves tie order unspecified, and no claim depends on it). -/
def hotChangePaths (log : List Row) : List String :=
  List.insertionSort (fun a b => changeCount log b ≤ changeCount log a)
    (dedupFirst ((dedupFirst (log.map (fun r => (r.revision, r.path)))).map (·.2)))

/-- Embedding of core.get_hot_spots at its default parameters (by equal to
path, one change counted per revision). The loc table carries (path, code)
rows, code being renamed to lines; the outer merge keeps every loc row,
joined with its count when one exists, and appends the counted paths
missing from loc with their lines filled to zero. Counts of paths missing
from the log are zero, which coincides with the fillna of the merge. -/
def get_hot_spots (log : List Row) (loc : List (String × Nat)) :
    List (String × ℚ × ℚ) :=
  loc.map (fun pl => (pl.1, (pl.2 : ℚ), (changeCount log pl.1 : ℚ)))
  ++ ((hotChangePaths log).filter (fun p => decide (p ∉ loc.map Prod.fst))).map
      (fun p => (p, (0 : ℚ), (changeCount log p : ℚ)))

/-- Log for the C9 witness: one revision touching path a. -/
def hotLog : List Row :=
  [⟨1, "a", "m", "x", 0⟩]

/-- Size table for the C9 witness: path b with 7 lines, no history. -/
def hotLoc : List (String × Nat) :=
  [("b", 7)]

theorem mem_dedupFirstAux [DecidableEq α] {a : α} :
    ∀ (l seen : List α), a ∈ dedupFirstAux seen l ↔ a ∈ l ∧ a ∉ seen := by
  intro l
  induction l with
  | nil => intro seen; simp [dedupFirstAux]
  | cons x xs ih =>
    intro seen
    by_cases hx : x ∈ seen
    · rw [dedupFirstAux, if_pos hx, ih]
      constructor
      · rintro ⟨h1, h2⟩
        exact ⟨List.mem_cons_of_mem x h1, h2⟩
      · rintro ⟨h1, h2⟩
        rcases List.mem_cons.1 h1 with h3 | h3
        · exact absurd (h3 ▸ hx) h2
        · exact ⟨h3, h2⟩
    · rw [dedupFirstAux, if_neg hx]
      constructor
      · intro h
        rcases List.mem_cons.1 h with h1 | h1
        · exact ⟨h1 ▸ List.mem_cons_self x xs, h1 ▸ hx⟩
        · rcases (ih (x :: seen)).1 h1 with ⟨h2, h3⟩
          exact ⟨List.mem_cons_of_mem x h2, fun hc => h3 (List.mem_cons_of_mem x hc)⟩
      · rintro ⟨h1, h2⟩
        rcases List.mem_cons.1 h1 with h3 | h3
        · exact h3 ▸ List.mem_cons_self _ _
        · by_cases hax : a = x
          · exact hax ▸ List.mem_cons_self _ _
          · exact List.mem_cons_of_mem _ ((ih (x :: seen)).2
              ⟨h3, fun hc => (List.mem_cons.1 hc).elim hax h2⟩)

theorem mem_dedupFirst [DecidableEq α] {a : α} {l : List α} :
    a ∈ dedupFirst l ↔ a ∈ l := by
  rw [dedupFirst, mem_dedupFirstAux]
  simp

theorem nodup_dedupFirstAux [DecidableEq α] :
    ∀ (l seen : List α), (dedupFirstAux seen l).Nodup := by
  intro l
  induction l with
  | nil => intro seen; simp [dedupFirstAux]
  | cons x xs ih =>
    intro seen
    by_cases hx : x ∈ seen
    · rw [dedupFirstAux, if_pos hx]; exact ih seen
    · rw [dedupFirstAux, if_neg hx]
      refine List.nodup_cons.2 ⟨fun hc => ?_, ih (x :: seen)⟩
      exact ((mem_dedupFirstAux xs (x :: seen)).1 hc).2 (List.mem_cons_self _ _)

theorem nodup_dedupFirst [DecidableEq α] (l : List α) : (dedupFirst l).Nodup :=
  nodup_dedupFirstAux l []

theorem dedupFirst_perm_of_perm [DecidableEq α] {l₁ l₂ : List α} (h : l₁.Perm l₂) :
    (dedupFirst l₁).Perm (dedupFirst l₂) := by
  rw [List.perm_ext_iff_of_nodup (nodup_dedupFirst l₁) (nodup_dedupFirst l₂)]
  intro a
  rw [mem_dedupFirst, mem_dedupFirst]
  exact h.mem_iff

theorem charListLe_total : ∀ as bs : List Char,
    charListLe as bs = true ∨ charListLe bs as = true := by
  intro as
  induction as with
  | nil => intro bs; left; rfl
  | cons a as ih =>
    intro bs
    cases bs with
    | nil => right; rfl
    | cons b bs =>
      rcases lt_trichotomy a b with h | h | h
      · left; rw [charListLe, if_pos h]
      · subst h
        rcases ih bs with h1 | h1
        · left; rw [charListLe, if_neg (lt_irrefl a), if_neg (lt_irrefl a)]; exact h1
        · right; rw [charListLe, if_neg (lt_irrefl a), if_neg (lt_irrefl a)]; exact h1
      · right; rw [charListLe, if_pos h]

theorem charListLe_trans : ∀ as bs cs : List Char,
    charListLe as bs = true → charListLe bs cs = true → charListLe as cs = true := by
  intro as
  induction as with
  | nil => intro bs cs _ _; rfl
  | cons a as ih =>
    intro bs cs h1 h2
    cases bs with
    | nil => exact absurd h1 (by simp [charListLe])
    | cons b bs =>
      cases cs with
      | nil => exact absurd h2 (by simp [charListLe])
      | cons c cs =>
        rw [charListLe] at h1 h2 ⊢
        by_cases hab : a < b
        · by_cases hbc : b < c
          · rw [if_pos (lt_trans hab hbc)]
          · by_cases hcb : c < b
            · rw [if_neg hbc, if_pos hcb] at h2
              exact absurd h2 (by simp)
            · have hbc2 : b = c := le_antisymm (not_lt.1 hcb) (not_lt.1 hbc)
              subst hbc2
              rw [if_pos hab]
        · by_cases hba : b < a
          · rw [if_neg hab, if_pos hba] at h1
            exact absurd h1 (by simp)
          · have hab2 : a = b := le_antisymm (not_lt.1 hba) (not_lt.1 hab)
            subst hab2
            rw [if_neg hab, if_neg hba] at h1
            by_cases hac : a < c
            · rw [if_pos hac]
            · by_cases hca : c < a
              · rw [if_neg hac, if_pos hca] at h2
                exact absurd h2 (by simp)
              · rw [if_neg hac, if_neg hca] at h2
                rw [if_neg hac, if_neg hca]
                exact ih bs cs h1 h2

theorem charListLe_antisymm : ∀ as bs : List Char,
    charListLe as bs = true → charListLe bs as = true → as = bs := by
  intro as
  induction as with
  | nil =>
    intro bs _ h2
    cases bs with
    | nil => rfl
    | cons b bs => exact absurd h2 (by simp [charListLe])
  | cons a as ih =>
    intro bs h1 h2
    cases bs with
    | nil => exact absurd h1 (by simp [charListLe])
    | cons b bs =>
      rcases lt_trichotomy a b with hab | hab | hab
      · rw [charListLe, if_neg (lt_asymm hab), if_pos hab] at h2
        exact absurd h2 (by simp)
      · subst hab
        rw [charListLe, if_neg (lt_irrefl a), if_neg (lt_irrefl a)] at h1 h2
        rw [ih bs h1 h2]
      · rw [charListLe, if_neg (lt_asymm hab), if_pos hab] at h1
        exact absurd h1 (by simp)

instance : IsTotal String strLe :=
  ⟨fun a b => charListLe_total a.data b.data⟩

instance : IsTrans String strLe :=
  ⟨fun a b c => charListLe_trans a.data b.data c.data⟩

instance : IsAntisymm String strLe := by
  refine ⟨fun a b h1 h2 => ?_⟩
  cases a with
  | mk as =>
    cases b with
    | mk bs => exact congrArg String.mk (charListLe_antisymm as bs h1 h2)

/-- Bridge between mkRat and field division on the rationals: the divisions
of the Python code are modeled with mkRat because mkRat evaluates in the
kernel, and this lemma records that nothing is changed by doing so. -/
theorem mkRat_eq_cast_div (a : Int) (b : Nat) :
    mkRat a b = (a : ℚ) / (b : ℚ) := by
  rw [Rat.mkRat_eq_div]

theorem countP_eq_le_one_of_nodup [DecidableEq α] :
    ∀ l : List α, l.Nodup → ∀ a : α, l.countP (fun x => decide (x = a)) ≤ 1 := by
  intro l
  induction l with
  | nil => intro _ a; simp
  | cons b l ih =>
    intro hn a
    rcases List.nodup_cons.1 hn with ⟨hb, hn2⟩
    rw [List.countP_cons]
    by_cases hba : b = a
    · have hz : l.countP (fun x => decide (x = a)) = 0 := by
        apply List.countP_eq_zero.2
        intro x hx
        simp only [decide_eq_true_eq]
        intro hxa
        exact hb ((hxa.trans hba.symm) ▸ hx)
      simp [hz, hba]
    · simp [hba, ih hn2 a]

theorem innerPred_eq (l : Nat × String) (p z : String) (hp : l.2 = p)
    (r : Nat × String) :
    (Option.map (fun x => decide (x = (p, z)))
      (if l.1 = r.1 then some (l.2, r.2) else none)).getD false
    = decide (r = (l.1, z)) := by
  by_cases h1 : l.1 = r.1
  · rw [if_pos h1]
    show decide ((l.2, r.2) = (p, z)) = decide (r = (l.1, z))
    rw [decide_eq_decide]
    constructor
    · intro he
      have e2 : r.2 = z := congrArg Prod.snd he
      calc r = (r.1, r.2) := rfl
        _ = (l.1, z) := by rw [← h1, e2]
    · intro he
      have e2 : r.2 = z := congrArg Prod.snd he
      rw [hp, e2]
  · rw [if_neg h1]
    show false = decide (r = (l.1, z))
    symm
    apply decide_eq_false
    intro he
    exact h1 (congrArg Prod.fst he).symm

theorem countP_inner_le (df : List (Nat × String)) (hdf : df.Nodup)
    (l : Nat × String) (hl : l ∈ df) (p q : String) :
    (df.filterMap (fun r => if l.1 = r.1 then some (l.2, r.2) else none)).countP
        (fun x => decide (x = (p, q)))
    ≤ (df.filterMap (fun r => if l.1 = r.1 then some (l.2, r.2) else none)).countP
        (fun x => decide (x = (p, p))) := by
  rw [List.countP_filterMap, List.countP_filterMap]
  by_cases hp : l.2 = p
  · have hq : df.countP (fun r =>
        (Option.map (fun x => decide (x = (p, q)))
          (if l.1 = r.1 then some (l.2, r.2) else none)).getD false)
        = df.countP (fun r => decide (r = (l.1, q))) :=
      List.countP_congr (fun r _ => by rw [innerPred_eq l p q hp r])
    have hq2 : df.countP (fun r =>
        (Option.map (fun x => decide (x = (p, p)))
          (if l.1 = r.1 then some (l.2, r.2) else none)).getD false)
        = df.countP (fun r => decide (r = (l.1, p))) :=
      List.countP_congr (fun r _ => by rw [innerPred_eq l p p hp r])
    rw [hq, hq2]
    have hle : df.countP (fun r => decide (r = (l.1, q))) ≤ 1 :=
      countP_eq_le_one_of_nodup df hdf (l.1, q)
    have hlp : l = (l.1, p) := by
      calc l = (l.1, l.2) := rfl
        _ = (l.1, p) := by rw [hp]
    have hge : 1 ≤ df.countP (fun r => decide (r = (l.1, p))) :=
      Nat.succ_le_of_lt (List.countP_pos_iff.2 ⟨l, hl, decide_eq_true hlp⟩)
    exact le_trans hle hge
  · have hz : df.countP (fun r : Nat × String =>
        (Option.map (fun x => decide (x = (p, q)))
          (if l.1 = r.1 then some (l.2, r.2) else none)).getD false) = 0 := by
      apply List.countP_eq_zero.2
      intro r _
      by_cases h1 : l.1 = r.1
      · rw [if_pos h1]
        show ¬ decide ((l.2, r.2) = (p, q)) = true
        rw [decide_eq_true_eq]
        intro he
        exact hp (congrArg Prod.fst he)
      · rw [if_neg h1]
        show ¬ false = true
        exact Bool.false_ne_true
    rw [hz]
    exact Nat.zero_le _

theorem countP_selfJoin_le_aux (df : List (Nat × String)) (hdf : df.Nodup)
    (p q : String) :
    ∀ L : List (Nat × String), (∀ l ∈ L, l ∈ df) →
      (L.flatMap (fun l =>
        df.filterMap (fun r => if l.1 = r.1 then some (l.2, r.2) else none))).countP
          (fun x => decide (x = (p, q)))
      ≤ (L.flatMap (fun l =>
        df.filterMap (fun r => if l.1 = r.1 then some (l.2, r.2) else none))).countP
          (fun x => decide (x = (p, p))) := by
  intro L
  induction L with
  | nil => intro _; simp
  | cons l L ih =>
    intro hmem
    rw [List.flatMap_cons, List.countP_append, List.countP_append]
    have h1 := countP_inner_le df hdf l (hmem l (List.mem_cons_self _ _)) p q
    have h2 := ih (fun x hx => hmem x (List.mem_cons_of_mem _ hx))
    omega

/-- Core counting fact behind claim C2: in the grouped self join of a
de-duplicated frame, the pair (p, q) occurs at most as often as the self
pair (p, p). -/
theorem pairCount_le (df : List (Nat × String)) (hdf : df.Nodup) (p q : String) :
    pairCount df (p, q) ≤ pairCount df (p, p) := by
  rw [pairCount, pairCount, selfJoin]
  exact countP_selfJoin_le_aux df hdf p q df (fun _ h => h)

theorem le_foldl_max_init : ∀ (xs : List Int) (b : Int), b ≤ xs.foldl max b := by
  intro xs
  induction xs with
  | nil => intro b; exact le_refl b
  | cons x xs ih =>
    intro b
    calc b ≤ max b x := le_max_left b x
      _ ≤ (x :: xs).foldl max b := ih (max b x)

theorem foldl_max_mem : ∀ (xs : List Int) (b : Int),
    xs.foldl max b = b ∨ xs.foldl max b ∈ xs := by
  intro xs
  induction xs with
  | nil => intro b; exact Or.inl rfl
  | cons x xs ih =>
    intro b
    have hstep : (x :: xs).foldl max b = xs.foldl max (max b x) := rfl
    rcases ih (max b x) with h | h
    · rcases max_choice b x with h2 | h2
      · exact Or.inl (by rw [hstep, h, h2])
      · refine Or.inr (List.mem_cons.2 (Or.inl ?_))
        rw [hstep, h, h2]
    · refine Or.inr (List.mem_cons_of_mem x ?_)
      rw [hstep]
      exact h

theorem le_foldl_max : ∀ (xs : List Int) (b a : Int), a ∈ xs → a ≤ xs.foldl max b := by
  intro xs
  induction xs with
  | nil => intro b a ha; cases ha
  | cons x xs ih =>
    intro b a ha
    rcases List.mem_cons.1 ha with h | h
    · subst h
      calc a ≤ max b a := le_max_right b a
        _ ≤ xs.foldl max (max b a) := le_foldl_max_init xs (max b a)
    · exact ih (max b x) a h

theorem listMax_mem : ∀ l : List Int, l ≠ [] → listMax l ∈ l := by
  intro l hl
  cases l with
  | nil => exact absurd rfl hl
  | cons x xs =>
    rw [listMax]
    rcases foldl_max_mem xs x with h | h
    · rw [h]
      exact List.mem_cons_self x xs
    · exact List.mem_cons_of_mem x h

theorem le_listMax : ∀ (l : List Int) (a : Int), a ∈ l → a ≤ listMax l := by
  intro l a ha
  cases l with
  | nil => cases ha
  | cons x xs =>
    rw [listMax]
    rcases List.mem_cons.1 ha with h | h
    · exact h ▸ le_foldl_max_init xs x
    · exact le_foldl_max xs x a h

theorem listMax_eq_of_perm : ∀ {l l' : List Int}, l.Perm l' → listMax l = listMax l' := by
  intro l l' h
  cases l with
  | nil =>
    rw [h.symm.eq_nil]
  | cons x xs =>
    have hne : (x :: xs) ≠ [] := List.cons_ne_nil x xs
    have hne2 : l' ≠ [] := by
      intro hc
      subst hc
      exact hne h.eq_nil
    apply le_antisymm
    · exact le_listMax l' _ (h.mem_iff.1 (listMax_mem _ hne))
    · exact le_listMax (x :: xs) _ (h.mem_iff.2 (listMax_mem l' hne2))

theorem agePaths_eq_of_perm {data data' : List Row} (h : data.Perm data') :
    agePaths data = agePaths data' := by
  unfold agePaths
  apply List.eq_of_perm_of_sorted (r := strLe)
  · exact ((List.perm_insertionSort strLe _).trans
      (dedupFirst_perm_of_perm (h.map _))).trans
      (List.perm_insertionSort strLe _).symm
  · exact List.sorted_insertionSort strLe _
  · exact List.sorted_insertionSort strLe _

/-- C1 counterexample: on massLog with threshold 1, get_mass_change_sets
keeps revision 1 although its distinct path count is 1, not above the
threshold, and it returns two rows for that single qualifying revision, one
per distinct (message, author) pair. This refutes the claim that exactly
the revisions with distinct path count above the threshold are returned,
one row per qualifying revision. -/
theorem mass_change_sets_counterexample :
    get_mass_change_sets massLog 1 = [(1, 2, "m1", "x"), (1, 2, "m2", "x")]
    ∧ distinctPathCount massLog 1 = 1 ∧ ¬ 1 < distinctPathCount massLog 1 := by
  decide

/-- C1 amended: get_mass_change_sets log k contains the tuple
(r, c, m, a) exactly when c is the number of rows of the log on revision r
(paths counted with multiplicity), c is strictly above the threshold, and
(r, m, a) is a (revision, message, author) combination occurring in the
log; moreover no output row is repeated, so each qualifying revision
produces one row per distinct (message, author) pair of the input log. -/
theorem mass_change_sets_spec (log : List Row) (k : Nat) :
    (∀ r c : Nat, ∀ m a : String,
      (r, c, m, a) ∈ get_mass_change_sets log k ↔
        c = rowCount log r ∧ k < c
          ∧ (r, m, a) ∈ log.map (fun x => (x.revision, x.message, x.author)))
    ∧ (get_mass_change_sets log k).Nodup := by
  constructor
  · intro r c m a
    constructor
    · intro h
      rcases List.mem_flatMap.1 h with ⟨rc, hrc, hinner⟩
      rcases List.mem_map.1 hinner with ⟨t, ht, heq⟩
      rcases List.mem_filter.1 ht with ⟨htm, htr⟩
      have htr2 : t.1 = rc.1 := of_decide_eq_true htr
      rcases List.mem_filter.1 hrc with ⟨hby, hk⟩
      have hk2 : k < rc.2 := of_decide_eq_true hk
      rcases List.mem_map.1 hby with ⟨rev, _, hrc2⟩
      have h1 : rc.1 = r := congrArg Prod.fst heq
      have h2 : rc.2 = c := congrArg (fun p => p.2.1) heq
      have h3 : t.2.1 = m := congrArg (fun p => p.2.2.1) heq
      have h4 : t.2.2 = a := congrArg (fun p => p.2.2.2) heq
      have hcnt : rc.2 = rowCount log rc.1 := by
        rw [← hrc2]
      refine ⟨by rw [← h2, ← h1, hcnt], by rw [← h2]; exact hk2, ?_⟩
      have htm2 : t ∈ log.map (fun x => (x.revision, x.message, x.author)) :=
        mem_dedupFirst.1 htm
      have ht3 : t = (r, m, a) := by
        have : t = (t.1, t.2.1, t.2.2) := rfl
        rw [this, htr2, h1, h3, h4]
      rw [← ht3]
      exact htm2
    · rintro ⟨hc, hk, hmem⟩
      rcases List.mem_map.1 hmem with ⟨x, hx, hxe⟩
      have hxr : x.revision = r := congrArg Prod.fst hxe
      have hrev : r ∈ revisionKeys log := by
        rw [revisionKeys]
        refine (List.perm_insertionSort _ _).mem_iff.2 (mem_dedupFirst.2 ?_)
        exact List.mem_map.2 ⟨x, hx, hxr⟩
      apply List.mem_flatMap.2
      refine ⟨(r, rowCount log r), ?_, ?_⟩
      · apply List.mem_filter.2
        refine ⟨List.mem_map.2 ⟨r, hrev, rfl⟩, ?_⟩
        exact decide_eq_true (hc ▸ hk)
      · apply List.mem_map.2
        refine ⟨(r, m, a), ?_, ?_⟩
        · apply List.mem_filter.2
          refine ⟨mem_dedupFirst.2 (List.mem_map.2 ⟨x, hx, hxe⟩), decide_eq_true rfl⟩
        · rw [hc]
  · rw [get_mass_change_sets]
    apply List.nodup_flatMap.2
    constructor
    · intro rc _
      apply List.Nodup.map_on
      · intro t1 ht1 t2 ht2 he
        have e1 : t1.1 = rc.1 := of_decide_eq_true (List.mem_filter.1 ht1).2
        have e2 : t2.1 = rc.1 := of_decide_eq_true (List.mem_filter.1 ht2).2
        have e3 : t1.2.1 = t2.2.1 := congrArg (fun p => p.2.2.1) he
        have e4 : t1.2.2 = t2.2.2 := congrArg (fun p => p.2.2.2) he
        calc t1 = (t1.1, t1.2.1, t1.2.2) := rfl
          _ = (t2.1, t2.2.1, t2.2.2) := by rw [e1, e2, e3, e4]
          _ = t2 := rfl
      · exact (nodup_dedupFirst _).filter _
    · have hnk : (revisionKeys log).Nodup :=
        (List.perm_insertionSort _ _).nodup_iff.2 (nodup_dedupFirst _)
      have hpw : ((revisionKeys log).map (fun rev => (rev, rowCount log rev))).Pairwise
          (fun p q => p.1 ≠ q.1) := by
        apply (List.pairwise_map).2
        exact hnk.imp (fun h => h)
      have hpw2 := hpw.sublist
        (List.filter_sublist (p := fun rc => decide (k < rc.2))
          ((revisionKeys log).map (fun rev => (rev, rowCount log rev))))
      refine hpw2.imp ?_
      intro p q hpq
      rw [Function.onFun, List.disjoint_left]
      intro row hrow hrow2
      rcases List.mem_map.1 hrow with ⟨t, _, ht⟩
      rcases List.mem_map.1 hrow2 with ⟨t2, _, ht2⟩
      have k1 : row.1 = p.1 := by rw [← ht]
      have k2 : row.1 = q.1 := by rw [← ht2]
      exact hpq (k1 ▸ k2)

/-- C1 witness: the amended characterization instantiated on massLog. -/
theorem mass_change_sets_spec_witness :
    (1, 2, "m1", "x") ∈ get_mass_change_sets massLog 1 :=
  ((mass_change_sets_spec massLog 1).1 1 2 "m1" "x").mpr (by decide)

/-- C2: get_co_changes never emits a row whose path equals its dependency,
every emitted row satisfies cochanges less than or equal to changes, and
the output is sorted by coupling in descending order. -/
theorem co_changes_spec (log : List Row) :
    (∀ row ∈ get_co_changes log,
      row.path ≠ row.dependency ∧ row.cochanges ≤ row.changes)
    ∧ List.Sorted (fun x y : ℚ => y ≤ x)
        ((get_co_changes log).map CoRow.coupling) := by
  constructor
  · intro row hrow
    have hrow2 : row ∈ coMerged log :=
      (List.perm_insertionSort couplingGE (coMerged log)).mem_iff.1 hrow
    rcases List.mem_flatMap.1 hrow2 with ⟨s, hs, hin⟩
    rcases List.mem_map.1 hin with ⟨t, ht, hteq⟩
    rcases List.mem_filter.1 ht with ⟨htn, hts⟩
    have hts2 : t.1.1 = s.1 := of_decide_eq_true hts
    rcases List.mem_filter.1 htn with ⟨htsj, htne⟩
    have htne2 : ¬ t.1.1 = t.1.2 := of_decide_eq_true htne
    rcases List.mem_map.1 htsj with ⟨pq, _, htpq⟩
    rcases List.mem_map.1 hs with ⟨u, hu, hueq⟩
    rcases List.mem_filter.1 hu with ⟨husj, hueqp⟩
    have hueq2 : u.1.1 = u.1.2 := of_decide_eq_true hueqp
    rcases List.mem_map.1 husj with ⟨pq2, _, hupq⟩
    constructor
    · have e1 : row.path = t.1.1 := by rw [← hteq]
      have e2 : row.dependency = t.1.2 := by rw [← hteq]
      rw [e1, e2]
      exact htne2
    · have e3 : row.cochanges = t.2 := by rw [← hteq]
      have e4 : row.changes = s.2 := by rw [← hteq]
      have et : t.2 = pairCount (coDf log) (t.1.1, t.1.2) := by
        rw [← htpq]
      have es : s.2 = pairCount (coDf log) (t.1.1, t.1.1) := by
        have es1 : s.2 = u.2 := by rw [← hueq]
        have es2 : s.1 = u.1.1 := by rw [← hueq]
        have eu : u.2 = pairCount (coDf log) (u.1.1, u.1.2) := by
          rw [← hupq]
        rw [es1, eu, ← hueq2, ← es2, hts2]
      rw [e3, e4, et, es]
      exact pairCount_le (coDf log) (nodup_dedupFirst _) t.1.1 t.1.2
  · have hsorted : List.Sorted couplingGE (get_co_changes log) :=
      List.sorted_insertionSort couplingGE (coMerged log)
    exact List.pairwise_map.2 (hsorted.imp (fun h => h))

/-- C3: on coLog, get_co_changes reports the pair (a, b) with changes 2,
cochanges 2 and coupling 1, and the pair (a, c) with changes 2, cochanges 1
and coupling one half (mkRat 1 2, which the last conjunct identifies with
the division 1 / 2). -/
theorem co_changes_scenario :
    (⟨"a", "b", 2, 2, 1⟩ : CoRow) ∈ get_co_changes coLog
    ∧ (⟨"a", "c", 2, 1, mkRat 1 2⟩ : CoRow) ∈ get_co_changes coLog
    ∧ mkRat 1 2 = (1 : ℚ) / 2 := by
  refine ⟨by decide, by decide, by rw [Rat.mkRat_eq_div]; norm_num⟩

/-- C2 witness: the general theorem instantiated on coLog at the row for
the pair (a, b). -/
theorem co_changes_spec_witness :
    (⟨"a", "b", 2, 2, 1⟩ : CoRow).path ≠ (⟨"a", "b", 2, 2, 1⟩ : CoRow).dependency
    ∧ (⟨"a", "b", 2, 2, 1⟩ : CoRow).cochanges ≤ (⟨"a", "b", 2, 2, 1⟩ : CoRow).changes :=
  (co_changes_spec coLog).1 ⟨"a", "b", 2, 2, 1⟩ (by decide)

/-- C4: to_bool maps strings lowercasing to true, 1 or t to true, strings
lowercasing to false, 0, f or the empty string to false, and any other
string to a ValueError naming the offending value; in particular T, True
and TRUE give true and no gives an error. -/
theorem to_bool_spec :
    (∀ s : String,
      ((strToLower s = "true" ∨ strToLower s = "1" ∨ strToLower s = "t") →
        to_bool s = Except.ok true)
      ∧ ((strToLower s = "false" ∨ strToLower s = "0" ∨ strToLower s = "f"
            ∨ strToLower s = "") →
        to_bool s = Except.ok false)
      ∧ (¬ (strToLower s = "true" ∨ strToLower s = "1" ∨ strToLower s = "t") →
          ¬ (strToLower s = "false" ∨ strToLower s = "0" ∨ strToLower s = "f"
            ∨ strToLower s = "") →
        to_bool s = Except.error ("cannot interpret " ++ s ++ " as a bool")))
    ∧ to_bool "T" = Except.ok true
    ∧ to_bool "True" = Except.ok true
    ∧ to_bool "TRUE" = Except.ok true
    ∧ to_bool "no" = Except.error "cannot interpret no as a bool" := by
  refine ⟨fun s => ⟨?_, ?_, ?_⟩, rfl, rfl, rfl, rfl⟩
  · intro h
    rw [to_bool]
    rw [if_pos h]
  · intro h
    have hn : ¬ (strToLower s = "true" ∨ strToLower s = "1" ∨ strToLower s = "t") := by
      rcases h with h | h | h | h <;> rw [h] <;> decide
    rw [to_bool]
    rw [if_neg hn, if_pos h]
  · intro h1 h2
    rw [to_bool]
    rw [if_neg h1, if_neg h2]

/-- C4 witness: the general clauses instantiated at concrete strings. -/
theorem to_bool_spec_witness :
    to_bool "1" = Except.ok true ∧ to_bool "F" = Except.ok false
    ∧ to_bool "x" = Except.error "cannot interpret x as a bool" :=
  ⟨(to_bool_spec.1 "1").1 (by decide),
   (to_bool_spec.1 "F").2.1 (by decide),
   (to_bool_spec.1 "x").2.2 (by decide) (by decide)⟩

/-- C5 counterexample: on entryNoText, whose date is present and whose
first path text extraction fails, process_entry aborts the revision with
an uncaught AssertionError: no LogEntry with a diagnostic placeholder path
is yielded, and the remaining path element is not processed. This refutes
the claim that the failure is logged, substituted and skipped. -/
theorem process_entry_counterexample :
    process_entry "/trunk" entryNoText = ([], some "AssertionError") := by
  decide

/-- C5 amended: when the text of the first path sub-element of an entry is
missing, process_entry aborts the entry immediately: the assert on the
extracted text raises an error that the except clause does not catch, so
no row is yielded (no placeholder is substituted) and the remaining path
elements are not processed. -/
theorem process_entry_missing_text (rel : String) (e : SvnEntry)
    (pe : PathElem) (rest : List PathElem)
    (hp : e.paths = pe :: rest) (ht : pe.text = none) :
    process_entry rel e = ([], some "AssertionError") := by
  rw [process_entry, hp]
  rw [processPaths]
  rw [processPath, ht]
  rfl

/-- C5 witness for the amended statement, at the concrete entry. -/
theorem process_entry_missing_text_witness :
    process_entry "/branch" entryNoText = ([], some "AssertionError") :=
  process_entry_missing_text "/branch" entryNoText peNoText [peGood] rfl rfl

/-- C6 counterexample: an entry whose date sub-element is missing but whose
path list is empty is processed without any propagated error (the loop
body never runs, so the date assert never fires), refuting the claim that
every missing-date entry fails with a propagated error. -/
theorem process_entry_date_counterexample :
    process_entry "/trunk" entryNoDateNoPaths = ([], none) := by
  decide

/-- C6 amended: an entry whose date sub-element is missing yields no
LogEntry rows and fabricates no timestamp, and it fails with a propagated
error exactly when it has at least one path element (the assert on the
date, or the earlier assert on a missing path text, fires inside the path
loop). -/
theorem process_entry_missing_date (rel : String) (e : SvnEntry)
    (hd : e.date = none) :
    (process_entry rel e).1 = []
    ∧ ((process_entry rel e).2.isSome ↔ e.paths ≠ []) := by
  cases hp : e.paths with
  | nil =>
    rw [process_entry, hp]
    exact ⟨rfl, by simp [processPaths]⟩
  | cons pe rest =>
    rw [process_entry, hp, processPaths, processPath, hd]
    cases ht : pe.text with
    | none =>
      exact ⟨rfl, Iff.intro (fun _ => List.cons_ne_nil pe rest) (fun _ => rfl)⟩
    | some t =>
      exact ⟨rfl, Iff.intro (fun _ => List.cons_ne_nil pe rest) (fun _ => rfl)⟩

/-- C6 witness for the amended statement, at a concrete entry with one
path element. -/
theorem process_entry_missing_date_witness :
    (process_entry "/x" entryNoDateWithPath).1 = []
    ∧ ((process_entry "/x" entryNoDateWithPath).2.isSome
        ↔ entryNoDateWithPath.paths ≠ []) :=
  process_entry_missing_date "/x" entryNoDateWithPath rfl

/-- C7 counterexample: on entryNoProp, whose only path element has no
prop-mods attribute, process_entry yields no LogEntry at all and fails:
the missing attribute was stored as np.nan and the boolean coercion of
np.nan raises an uncaught AttributeError. This refutes the claim that a
LogEntry with propmods false or unknown is still yielded. -/
theorem process_entry_propmods_counterexample :
    (process_entry "/trunk" entryNoProp).1 = []
    ∧ (process_entry "/trunk" entryNoProp).2
        = some "AttributeError: nan has no attribute lower" := by
  decide

/-- C7 amended: when the prop-mods attribute is absent on the first path
element of an entry (all other needed fields being present and its
text-mods value coercible), process_entry aborts the entry with the
AttributeError arising from coercing the nan marker, instead of yielding a
LogEntry for that path. -/
theorem process_entry_missing_propmods (rel : String) (e : SvnEntry)
    (pe : PathElem) (rest : List PathElem) (t d tm : String) (b : Bool)
    (hp : e.paths = pe :: rest) (ht : pe.text = some t) (hd : e.date = some d)
    (htm : pe.textMods = some tm) (hb : to_bool tm = Except.ok b)
    (hpm : pe.propMods = none) :
    process_entry rel e
      = ([], some "AttributeError: nan has no attribute lower") := by
  rw [process_entry, hp]
  simp only [processPaths, processPath, ht, hd, htm, hpm, hb, to_bool_attr]
  rfl

/-- C7 witness for the amended statement, at the concrete entry. -/
theorem process_entry_missing_propmods_witness :
    process_entry "/trunk" entryNoProp
      = ([], some "AttributeError: nan has no attribute lower") :=
  process_entry_missing_propmods "/trunk" entryNoProp peNoProp []
    "/trunk/g.c" "2018-01-02" "true" true rfl rfl rfl rfl rfl rfl

/-- C8: get_ages returns the same table on any permutation of its input,
and when every date of the input is at most the injected now, every age of
the output is non-negative; each age is (now minus the maximum date of the
path group) divided by the seconds of one day, with the single now
parameter shared by all groups. -/
theorem get_ages_spec (data data' : List Row) (now : Int) :
    (data.Perm data' → get_ages data now = get_ages data' now)
    ∧ ((∀ r ∈ data, r.date ≤ now) →
        ∀ pa ∈ get_ages data now, 0 ≤ pa.2) := by
  constructor
  · intro h
    rw [get_ages, get_ages, agePaths_eq_of_perm h]
    apply List.map_congr_left
    intro p _
    have hperm : (groupDates data p).Perm (groupDates data' p) :=
      (h.filter _).map _
    rw [listMax_eq_of_perm hperm]
  · intro hle pa hpa
    rcases List.mem_map.1 hpa with ⟨p, hp, hpe⟩
    have hp2 : p ∈ data.map (·.path) :=
      mem_dedupFirst.1 ((List.perm_insertionSort strLe _).mem_iff.1 hp)
    rcases List.mem_map.1 hp2 with ⟨r, hr, hrp⟩
    have hgrp : r.date ∈ groupDates data p := by
      rw [groupDates]
      exact List.mem_map.2
        ⟨r, List.mem_filter.2 ⟨hr, decide_eq_true hrp⟩, rfl⟩
    have hne : groupDates data p ≠ [] := List.ne_nil_of_mem hgrp
    have hmax : listMax (groupDates data p) ∈ groupDates data p :=
      listMax_mem _ hne
    rcases List.mem_map.1 hmax with ⟨r2, hr2, hr2e⟩
    have hr2d : r2 ∈ data := (List.mem_filter.1 hr2).1
    have hmle : listMax (groupDates data p) ≤ now := hr2e ▸ hle r2 hr2d
    have hnum : (0 : Int) ≤ now - listMax (groupDates data p) := by omega
    have hval : pa.2 = mkRat (now - listMax (groupDates data p)) 86400 := by
      rw [← hpe]
    rw [hval, mkRat_eq_cast_div]
    apply div_nonneg
    · exact_mod_cast hnum
    · norm_num

/-- C8 witness: the theorem instantiated on a concrete two-row swap with
now at 10. -/
theorem get_ages_spec_witness :
    get_ages agesLog 10 = get_ages agesLogPerm 10
    ∧ (∀ pa ∈ get_ages agesLog 10, 0 ≤ pa.2) :=
  ⟨(get_ages_spec agesLog agesLogPerm 10).1 (List.Perm.swap _ _ _),
   (get_ages_spec agesLog agesLogPerm 10).2 (by decide)⟩

/-- C9: get_hot_spots keeps every path of either input. Every loc row
appears with its line count and its change count (zero when the path has
no history), and every logged path absent from loc appears with its lines
filled to zero; no path of either input is dropped. -/
theorem get_hot_spots_spec (log : List Row) (loc : List (String × Nat)) :
    (∀ pl ∈ loc,
      (pl.1, (pl.2 : ℚ), (changeCount log pl.1 : ℚ)) ∈ get_hot_spots log loc)
    ∧ (∀ r ∈ log, r.path ∉ loc.map Prod.fst →
      (r.path, (0 : ℚ), (changeCount log r.path : ℚ)) ∈ get_hot_spots log loc) := by
  constructor
  · intro pl hpl
    apply List.mem_append_left
    exact List.mem_map.2 ⟨pl, hpl, rfl⟩
  · intro r hr hnot
    apply List.mem_append_right
    apply List.mem_map.2
    refine ⟨r.path, ?_, rfl⟩
    apply List.mem_filter.2
    refine ⟨?_, decide_eq_true hnot⟩
    rw [hotChangePaths]
    apply (List.perm_insertionSort _ _).mem_iff.2
    apply mem_dedupFirst.2
    apply List.mem_map.2
    refine ⟨(r.revision, r.path), ?_, rfl⟩
    exact mem_dedupFirst.2 (List.mem_map.2 ⟨r, hr, rfl⟩)

/-- C9 witness: the theorem instantiated on hotLog and hotLoc, showing the
loc-only path b kept with zero changes and the history-only path a kept
with zero lines. -/
theorem get_hot_spots_spec_witness :
    ("b", (7 : ℚ), (changeCount hotLog "b" : ℚ)) ∈ get_hot_spots hotLog hotLoc
    ∧ ("a", (0 : ℚ), (changeCount hotLog "a" : ℚ)) ∈ get_hot_spots hotLog hotLoc :=
  ⟨(get_hot_spots_spec hotLog hotLoc).1 ("b", 7) (by decide),
   (get_hot_spots_spec hotLog hotLoc).2 ⟨1, "a", "m", "x", 0⟩ (by decide) (by decide)⟩

end Codemetrics
